import Mathlib

/-!
Verification of the `go-formatter` Angular-template reformatter.

Shallow embedding of the template re-indentation engine of
`src/main.go` (`formatAngularTemplate` and its helpers).  Go strings are
modelled as `List Char`; Go's byte indexing becomes list recursion, and
each of Go's if/else-if chains on the current byte becomes an
if-then-else chain on the current character.  The single index-bounded
scan loop of `expandLineWithIndent` is modelled with an explicit fuel
equal to the scanned length, mirroring the fact that the Go loop
advances the index by at least one per iteration (proved as claim C8);
all other loops consume at least one character per step and are
structural.  `strings.TrimSpace` is modelled over the ASCII whitespace
characters (space, tab, newline, vertical tab, form feed, carriage
return), the only ones the engine's inputs exercise.
-/

namespace GoFormatter

/-- Strings as character lists (Go byte strings, ASCII in all relevant places). -/
abbrev Str := List Char

/-- Convert a Lean string literal to the model's string type. -/
def str (s : String) : Str := s.toList

/-- Whitespace recognised by the model of `strings.TrimSpace`. -/
def isSpaceCh (c : Char) : Bool :=
  c == ' ' || c == '\t' || c == '\n' || c == '\x0b' || c == '\x0c' || c == '\r'

/-- Remove trailing whitespace. -/
def trimRight (l : Str) : Str :=
  (l.reverse.dropWhile isSpaceCh).reverse

/-- Model of `strings.TrimSpace`. -/
def trimSpace (l : Str) : Str :=
  trimRight (l.dropWhile isSpaceCh)

/-- Model of `strings.HasPrefix p` applied to `s` (arguments: pattern, string). -/
def hasPre : Str → Str → Bool
  | [], _ => true
  | _ :: _, [] => false
  | a :: as, b :: bs => a == b && hasPre as bs

/-- Model of `strings.Contains s p` (does `s` contain `p` as a substring). -/
def containsSub : Str → Str → Bool
  | [], p => hasPre p []
  | s@(_ :: s'), p => hasPre p s || containsSub s' p

/-- Is the first character of the list `c`?  (Models Go's guarded
one-byte lookahead `i+1 < len(s) && s[i+1] == c`.) -/
def firstIs (c : Char) : Str → Bool
  | [] => false
  | d :: _ => d == c

/-- Model of `extractIndent` (main.go:480): the leading run of spaces and tabs. -/
def extractIndent (l : Str) : Str :=
  l.takeWhile (fun c => c == ' ' || c == '\t')

/-- The fixed `indentUnit` (main.go:250) repeated `depth` times.
`strings.Repeat` requires a nonnegative count; `Int.toNat` encodes that
only nonnegative depths reach this point (proved as claim C3). -/
def repeatIndent (d : Int) : Str :=
  List.replicate (4 * d.toNat) ' '

/-- Model of `depthIndent` (main.go:426): clamp negative depth to zero, then
indent-unit repetition followed by the original indent (`Int.toNat` is
exactly the clamp of main.go:427-429). -/
def depthIndent (ind : Str) (d : Int) : Str :=
  List.replicate (4 * d.toNat) ' ' ++ ind

/-- Model of `isControlFlowLine` (main.go:324). -/
def isControlFlowLine (trimmed : Str) : Bool :=
  if (containsSub trimmed (str "@for") || containsSub trimmed (str "@if") ||
      containsSub trimmed (str "@else") || containsSub trimmed (str "@switch")) &&
      containsSub trimmed (str "\x7b") then
    true
  else if containsSub trimmed (str "\x7d @") then
    true
  else
    false

/-- The fixed directive vocabulary of `isControlFlowDirective` (main.go:442). -/
def directiveList : List Str :=
  [str "@if", str "@else if", str "@else", str "@switch",
   str "@case", str "@default", str "@for", str "@empty"]

/-- Word-boundary characters accepted after a directive keyword (main.go:449). -/
def boundaryChars : List Char := [' ', '(', '{', '\n', '\t']

/-- Model of `isControlFlowDirective` (main.go:441): a keyword of the vocabulary
followed by a word-boundary character or the end of the string. -/
def isControlFlowDirective (s : Str) : Bool :=
  directiveList.any fun d =>
    hasPre d s &&
      (s.length == d.length ||
        match s.drop d.length with
        | [] => false
        | c :: _ => boundaryChars.contains c)

/-- The scanning loop of `extractDirective` (main.go:462-476), consuming
one character per step: `acc` is the consumed prefix, `pd` the
parenthesis depth, `ip` whether a parenthesis has been opened. -/
def extractLoop : Str → Str → Int → Bool → (Str × Str)
  | [], acc, _, _ => (trimSpace acc, [])
  | c :: r, acc, pd, ip =>
    if c = '(' then extractLoop r (acc ++ [c]) (pd + 1) true
    else if c = ')' then
      if pd - 1 = 0 ∧ ip = true then (acc ++ [c], r)
      else extractLoop r (acc ++ [c]) (pd - 1) ip
    else if c = '{' then
      if pd = 0 then (trimSpace acc, '{' :: r)
      else extractLoop r (acc ++ [c]) pd ip
    else extractLoop r (acc ++ [c]) pd ip

/-- Model of `extractDirective` (main.go:457): directive text and the unconsumed rest. -/
def extractDirective (l : Str) : Str × Str :=
  extractLoop l [] 0 false

/-- The interpolation copy loop inside `expandLineWithIndent`
(main.go:351-359): copy characters after a `{{` until a `}}`
(inclusive) or the end of the line; returns the copied text and the
rest. -/
def interpCopy : Str → (Str × Str)
  | [] => ([], [])
  | c :: r =>
    if c = '}' ∧ firstIs '}' r = true then (['}', '}'], r.drop 1)
    else
      let (w, r') := interpCopy r
      (c :: w, r')

/-- The space/tab skipping loops of `expandLineWithIndent` (main.go:369 etc.). -/
def dropSpacesHT (l : Str) : Str :=
  l.dropWhile (fun c => c == ' ' || c == '\t')

/-- Model of `flushWithDepth` (main.go:433) as a pure function on the accumulator. -/
def flushB (ind : Str) (eff : Int) (acc : List Str) (buf : Str) : List Str :=
  let content := trimSpace buf
  if content = [] then acc else acc ++ [depthIndent ind eff ++ content]

/-- Result record of `expandLineWithIndent` (main.go:319). -/
structure ExpandResult where
  lines : List Str
  finalDepth : Int
  deriving Repr, DecidableEq

/-- The character scan of `expandLineWithIndent` (main.go:344-412).
`fuel` bounds the number of loop iterations (the Go loop advances `i` by
at least one per iteration, so the line length suffices; claim C8).  At
fuel exhaustion the loop stops and flushes, exactly like the end of
input; this case is unreachable from the entry point. -/
def expandLoop (ind : Str) (depth : Int) :
    Nat → Str → Str → Int → List Str → (List Str × Int)
  | _, [], buf, local_, acc => (flushB ind (depth + local_) acc buf, local_)
  | 0, _ :: _, buf, local_, acc => (flushB ind (depth + local_) acc buf, local_)
  | f + 1, c :: r, buf, local_, acc =>
    if c = '{' ∧ firstIs '{' r = true then
      let (w, r') := interpCopy (r.drop 1)
      expandLoop ind depth f r' (buf ++ '{' :: '{' :: w) local_ acc
    else if c = '@' ∧ isControlFlowDirective (c :: r) = true then
      let acc1 := flushB ind (depth + local_) acc buf
      let (dir, rest1) := extractDirective (c :: r)
      let acc2 := acc1 ++ [depthIndent ind (depth + local_) ++ dir]
      let rest2 := dropSpacesHT rest1
      if firstIs '{' rest2 = true then
        expandLoop ind depth f (dropSpacesHT (rest2.drop 1)) []
          (local_ + 1) (acc2 ++ [depthIndent ind (depth + local_) ++ ['{']])
      else
        expandLoop ind depth f rest2 [] local_ acc2
    else if c = '}' then
      let acc1 := flushB ind (depth + local_) acc buf
      let l2 := if depth + (local_ - 1) < 0 then -depth else local_ - 1
      expandLoop ind depth f (dropSpacesHT r) []
        l2 (acc1 ++ [depthIndent ind (depth + l2) ++ ['}']])
    else if c = '{' then
      let acc1 := flushB ind (depth + local_) acc buf
      expandLoop ind depth f (dropSpacesHT r) []
        (local_ + 1) (acc1 ++ [depthIndent ind (depth + local_) ++ ['{']])
    else
      expandLoop ind depth f r (buf ++ [c]) local_ acc

/-- Model of `expandLineWithIndent` (main.go:336): run the scan with fuel equal to
the line length, then the empty-result fallback (main.go:416-418) and
the final depth. -/
def expandLineWithIndent (trimmed ind : Str) (startDepth : Int) : ExpandResult :=
  let (ls, local_) := expandLoop ind startDepth trimmed.length trimmed [] 0 []
  { lines := if ls.isEmpty then [depthIndent ind startDepth ++ trimmed] else ls
    finalDepth := startDepth + local_ }

/-- Running state of `formatAngularTemplate`'s line loop (main.go:258). -/
structure FmtState where
  result : List Str
  depth : Int
  inComment : Bool
  deriving Repr, DecidableEq

/-- The non-comment classification path of the line loop (main.go:284-313):
expansion check, standalone-`}` fast path, regular-line fast path. -/
def classifyLine (depth : Int) (trimmed ind : Str) : List Str × Int :=
  let needsExpand := (containsSub trimmed (str "@") && isControlFlowLine trimmed) ||
    containsSub trimmed (str "\x7d \x7d")
  if needsExpand = false then
    if trimmed = str "\x7d" then
      let d2 := if depth - 1 < 0 then 0 else depth - 1
      ([repeatIndent d2 ++ ind ++ trimmed], d2)
    else
      ([repeatIndent depth ++ ind ++ trimmed], depth)
  else
    let e := expandLineWithIndent trimmed ind depth
    (e.lines, e.finalDepth)

/-- One iteration of the line loop of `formatAngularTemplate`
(main.go:261-314): blank pass-through, comment-mode entry, comment-mode
pass-through, classification. -/
def procLine (st : FmtState) (line : Str) : FmtState :=
  let trimmed := trimSpace line
  let ind := extractIndent line
  if trimmed = [] then
    { st with result := st.result ++ [[]] }
  else if containsSub trimmed (str "<!--") = true ∧
      containsSub trimmed (str "-->") = false then
    { result := st.result ++ [line], depth := st.depth, inComment := true }
  else if st.inComment = true then
    { result := st.result ++ [line], depth := st.depth,
      inComment := if containsSub trimmed (str "-->") = true then false else true }
  else
    let (ls, d) := classifyLine st.depth trimmed ind
    { result := st.result ++ ls, depth := d, inComment := st.inComment }

/-- Model of `strings.Split content "\n"`. -/
def splitNL : Str → List Str
  | [] => [[]]
  | c :: r =>
    if c = '\n' then [] :: splitNL r
    else
      match splitNL r with
      | h :: t => (c :: h) :: t
      | [] => [[c]]

/-- Model of `strings.Join result "\n"`. -/
def joinNL : List Str → Str
  | [] => []
  | [l] => l
  | l :: ls => l ++ '\n' :: joinNL ls

/-- Model of `formatAngularTemplate` (main.go:254): split into lines, run the
stateful line loop from depth 0 outside a comment, re-join. -/
def formatAngularTemplate (content : Str) : Str :=
  joinNL ((splitNL content).foldl procLine ⟨[], 0, false⟩).result
/-!
Predicates used to state the brace-per-line contract (claim C2).
-/

/-- Characterisation of flushed buffer content: a content line decomposes
into non-brace characters and interpolation spans (a final span may be
unterminated); no brace occurs outside a span. -/
inductive ContentOK : Str → Prop where
  | nil : ContentOK []
  | plain (c : Char) (x : Str) (h1 : c ≠ '{') (h2 : c ≠ '}') (h : ContentOK x) :
      ContentOK (c :: x)
  | span (inner rest : Str) (hin : containsSub inner (str "\x7d\x7d") = false)
      (h : ContentOK rest) :
      ContentOK ('{' :: '{' :: (inner ++ ('}' :: '}' :: rest)))
  | spanOpen (inner : Str) (hin : containsSub inner (str "\x7d\x7d") = false) :
      ContentOK ('{' :: '{' :: inner)

/-- Shape of an output line of the expansion scan: an indentation prefix
followed by exactly one structural token (a lone opening brace, a lone
closing brace, or one extracted directive head) or by buffered content
containing no structural brace outside interpolation spans. -/
def ShapeOK (ind : Str) (l : Str) : Prop :=
  ∃ (n : Int) (x : Str), l = depthIndent ind n ++ x ∧
    (x = ['{'] ∨ x = ['}'] ∨
      (∃ s, isControlFlowDirective s = true ∧ x = (extractDirective s).1) ∨
      ContentOK x)

/-!
Supporting lemmas: correspondence of the executable substring tests with
prefix/infix predicates, progress and fuel-insensitivity of the
scanners, depth bounds, comment-mode behaviour, and the shape invariant
of the expansion scan.
-/

theorem hasPre_iff (p s : Str) : hasPre p s = true ↔ p <+: s := by
  induction p generalizing s with
  | nil => simp [hasPre]
  | cons a as ih =>
    cases s with
    | nil => simp [hasPre]
    | cons b bs => simp [hasPre, ih, List.cons_prefix_cons]

theorem containsSub_iff (s p : Str) : containsSub s p = true ↔ p <:+: s := by
  induction s with
  | nil => simp [containsSub, hasPre_iff]
  | cons c s' ih => simp [containsSub, hasPre_iff, ih, List.infix_cons_iff]

theorem extractLoop_skip (a : Str) :
    ∀ (acc r : Str), (∀ c ∈ a, c ≠ '(' ∧ c ≠ ')' ∧ c ≠ '{') →
      extractLoop (a ++ '{' :: r) acc 0 false = (trimSpace (acc ++ a), '{' :: r) := by
  induction a with
  | nil =>
    intro acc r _
    simp [extractLoop]
  | cons c a' ih =>
    intro acc r h
    have hc := h c (List.mem_cons_self c a')
    simp only [List.cons_append, extractLoop, List.append_eq]
    rw [if_neg hc.1, if_neg hc.2.1, if_neg hc.2.2]
    rw [ih (acc ++ [c]) r (fun d hd => h d (List.mem_cons_of_mem c hd))]
    simp

theorem interpCopy_append : ∀ z : Str, (interpCopy z).1 ++ (interpCopy z).2 = z := by
  intro z
  induction z with
  | nil => simp [interpCopy]
  | cons c r ih =>
    simp only [interpCopy]
    by_cases h : (c = '}' ∧ firstIs '}' r = true)
    · rw [if_pos h]
      obtain ⟨hc, hf⟩ := h
      cases r with
      | nil => simp [firstIs] at hf
      | cons d r2 =>
        simp only [firstIs, beq_iff_eq] at hf
        subst hc; subst hf
        simp
    · rw [if_neg h]
      rcases hp : interpCopy r with ⟨w, r'⟩
      rw [hp] at ih
      simpa using ih

theorem interpCopy_rest_le (z : Str) : (interpCopy z).2.length ≤ z.length := by
  have := interpCopy_append z
  calc (interpCopy z).2.length ≤ (interpCopy z).1.length + (interpCopy z).2.length := by omega
    _ = z.length := by rw [← List.length_append, this]

theorem interpCopy_unterminated :
    ∀ z : Str, containsSub z (str "\x7d\x7d") = false → interpCopy z = (z, []) := by
  intro z
  induction z with
  | nil => simp [interpCopy]
  | cons c r ih =>
    intro h
    simp only [containsSub, Bool.or_eq_false_iff] at h
    obtain ⟨h1, h2⟩ := h
    simp only [interpCopy]
    rw [if_neg ?hneg]
    case hneg =>
      rintro ⟨hc, hf⟩
      cases r with
      | nil => simp [firstIs] at hf
      | cons d r2 =>
        simp only [firstIs, beq_iff_eq] at hf
        subst hc; subst hf
        simp [hasPre, str] at h1
    · rw [ih h2]

theorem extractLoop_rest_le :
    ∀ (l acc : Str) (pd : Int) (ip : Bool), (extractLoop l acc pd ip).2.length ≤ l.length := by
  intro l
  induction l with
  | nil => intro acc pd ip; simp [extractLoop]
  | cons c r ih =>
    intro acc pd ip
    simp only [extractLoop]
    split_ifs <;> simp only [List.length_cons] <;>
      first
        | omega
        | exact le_trans (ih _ _ _) (by omega)

theorem dropSpacesHT_le (l : Str) : (dropSpacesHT l).length ≤ l.length :=
  (List.dropWhile_suffix _).length_le

theorem extractDirective_rest_le (c : Char) (r : Str) (h : c ≠ '{') :
    (extractDirective (c :: r)).2.length ≤ r.length := by
  unfold extractDirective
  simp only [extractLoop]
  by_cases h1 : c = '('
  · rw [if_pos h1]
    exact extractLoop_rest_le _ _ _ _
  · rw [if_neg h1]
    by_cases h2 : c = ')'
    · rw [if_pos h2, if_neg (by simp)]
      exact extractLoop_rest_le _ _ _ _
    · rw [if_neg h2, if_neg h]
      exact extractLoop_rest_le _ _ _ _

theorem expandLoop_fuel (ind : Str) (d : Int) :
    ∀ (f g : Nat) (rest buf : Str) (local_ : Int) (acc : List Str),
      rest.length ≤ f → rest.length ≤ g →
      expandLoop ind d f rest buf local_ acc = expandLoop ind d g rest buf local_ acc := by
  intro f
  induction f with
  | zero =>
    intro g rest buf local_ acc hf hg
    have : rest = [] := List.length_eq_zero.mp (Nat.le_zero.mp hf)
    subst this
    cases g <;> rfl
  | succ f ih =>
    intro g rest buf local_ acc hf hg
    cases rest with
    | nil => cases g <;> rfl
    | cons c r =>
      have hr : r.length + 1 ≤ g := by simpa using hg
      cases g with
      | zero => omega
      | succ g' =>
        simp only [expandLoop]
        by_cases h1 : (c = '{' ∧ firstIs '{' r = true)
        · rw [if_pos h1, if_pos h1]
          rcases hp : interpCopy (r.drop 1) with ⟨w, r'⟩
          dsimp only
          have h2 := interpCopy_rest_le (r.drop 1)
          rw [hp] at h2
          simp only [List.length_drop] at h2
          simp only [List.length_cons] at hf hg
          apply ih <;> omega
        · rw [if_neg h1, if_neg h1]
          by_cases h2 : (c = '@' ∧ isControlFlowDirective (c :: r) = true)
          · rw [if_pos h2, if_pos h2]
            rcases hp : extractDirective (c :: r) with ⟨dir, rest1⟩
            dsimp only
            have hle : rest1.length ≤ r.length := by
              have h3 := extractDirective_rest_le c r (by rw [h2.1]; decide)
              rw [hp] at h3
              exact h3
            by_cases hb : firstIs '{' (dropSpacesHT rest1) = true
            · rw [if_pos hb, if_pos hb]
              have hle2 : (dropSpacesHT ((dropSpacesHT rest1).drop 1)).length ≤ r.length := by
                have a1 := dropSpacesHT_le ((dropSpacesHT rest1).drop 1)
                have a2 := dropSpacesHT_le rest1
                simp only [List.length_drop] at a1
                omega
              apply ih <;> simp only [List.length_cons] at hf hg <;> omega
            · rw [if_neg hb, if_neg hb]
              have hle2 : (dropSpacesHT rest1).length ≤ r.length :=
                le_trans (dropSpacesHT_le rest1) hle
              apply ih <;> simp only [List.length_cons] at hf hg <;> omega
          · rw [if_neg h2, if_neg h2]
            by_cases h3 : c = '}'
            · rw [if_pos h3, if_pos h3]
              have hle : (dropSpacesHT r).length ≤ r.length := dropSpacesHT_le r
              apply ih <;> simp only [List.length_cons] at hf hg <;> omega
            · rw [if_neg h3, if_neg h3]
              by_cases h4 : c = '{'
              · rw [if_pos h4, if_pos h4]
                have hle : (dropSpacesHT r).length ≤ r.length := dropSpacesHT_le r
                apply ih <;> simp only [List.length_cons] at hf hg <;> omega
              · rw [if_neg h4, if_neg h4]
                apply ih <;> simp only [List.length_cons] at hf hg <;> omega

theorem expandLoop_local_nonneg (ind : Str) (d : Int) :
    ∀ (f : Nat) (rest buf : Str) (local_ : Int) (acc : List Str),
      0 ≤ d + local_ → 0 ≤ d + (expandLoop ind d f rest buf local_ acc).2 := by
  intro f
  induction f with
  | zero =>
    intro rest buf local_ acc h
    cases rest <;> simpa [expandLoop]
  | succ f ih =>
    intro rest buf local_ acc h
    cases rest with
    | nil => simpa [expandLoop]
    | cons c r =>
      simp only [expandLoop]
      by_cases h1 : (c = '{' ∧ firstIs '{' r = true)
      · rw [if_pos h1]
        rcases hp : interpCopy (r.drop 1) with ⟨w, r'⟩
        exact ih _ _ _ _ h
      · rw [if_neg h1]
        by_cases h2 : (c = '@' ∧ isControlFlowDirective (c :: r) = true)
        · rw [if_pos h2]
          rcases hp : extractDirective (c :: r) with ⟨dir, rest1⟩
          dsimp only
          by_cases hb : firstIs '{' (dropSpacesHT rest1) = true
          · rw [if_pos hb]
            exact ih _ _ _ _ (by omega)
          · rw [if_neg hb]
            exact ih _ _ _ _ h
        · rw [if_neg h2]
          by_cases h3 : c = '}'
          · rw [if_pos h3]
            by_cases hd : d + (local_ - 1) < 0
            · rw [if_pos hd]
              exact ih _ _ _ _ (by omega)
            · rw [if_neg hd]
              exact ih _ _ _ _ (by omega)
          · rw [if_neg h3]
            by_cases h4 : c = '{'
            · rw [if_pos h4]
              exact ih _ _ _ _ (by omega)
            · rw [if_neg h4]
              exact ih _ _ _ _ h

theorem expandLine_depth_nonneg (t ind : Str) (d : Int) (h : 0 ≤ d) :
    0 ≤ (expandLineWithIndent t ind d).finalDepth := by
  unfold expandLineWithIndent
  have := expandLoop_local_nonneg ind d t.length t [] 0 [] (by omega)
  rcases hp : expandLoop ind d t.length t [] 0 [] with ⟨ls, local_⟩
  rw [hp] at this
  simpa using this

theorem classifyLine_depth_nonneg (d : Int) (t ind : Str) (h : 0 ≤ d) :
    0 ≤ (classifyLine d t ind).2 := by
  unfold classifyLine
  dsimp only
  split_ifs with he hz hd <;> dsimp only <;>
    first
      | omega
      | exact expandLine_depth_nonneg _ _ _ h

theorem procLine_depth_nonneg (st : FmtState) (line : Str) (h : 0 ≤ st.depth) :
    0 ≤ (procLine st line).depth := by
  unfold procLine
  dsimp only
  split_ifs with h1 h2 h3 h4 <;>
    first
      | exact h
      | exact classifyLine_depth_nonneg st.depth _ _ h

theorem foldl_depth_nonneg (ls : List Str) :
    ∀ st : FmtState, 0 ≤ st.depth → 0 ≤ (ls.foldl procLine st).depth := by
  induction ls with
  | nil => intro st h; simpa
  | cons l ls ih =>
    intro st h
    rw [List.foldl_cons]
    exact ih _ (procLine_depth_nonneg st l h)

theorem procLine_inComment (st : FmtState) (line : Str)
    (h : st.inComment = true) (hnb : trimSpace line ≠ []) :
    procLine st line =
      { result := st.result ++ [line], depth := st.depth,
        inComment := if containsSub (trimSpace line) (str "-->") = true
          then false else true } := by
  unfold procLine
  dsimp only
  rw [if_neg hnb]
  by_cases h2 : (containsSub (trimSpace line) (str "<!--") = true ∧
      containsSub (trimSpace line) (str "-->") = false)
  · rw [if_pos h2]
    simp [h2.2]
  · rw [if_neg h2, if_pos h]

theorem foldl_comment_body (body : List Str) :
    ∀ st : FmtState, st.inComment = true →
      (∀ l ∈ body, trimSpace l ≠ [] ∧
        containsSub (trimSpace l) (str "-->") = false) →
      body.foldl procLine st =
        { result := st.result ++ body, depth := st.depth, inComment := true } := by
  induction body with
  | nil =>
    intro st h _
    simp
    cases st
    simp_all
  | cons l ls ih =>
    intro st h hb
    rw [List.foldl_cons, procLine_inComment st l h (hb l (List.mem_cons_self l ls)).1]
    rw [if_neg (by simp [(hb l (List.mem_cons_self l ls)).2])]
    rw [ih _ rfl (fun x hx => hb x (List.mem_cons_of_mem l hx))]
    simp

theorem rbb_eq : str "\x7d\x7d" = ['}', '}'] := by decide

theorem noRBB_snoc (a : Str) (c : Char)
    (ha : containsSub a (str "\x7d\x7d") = false) (hc : c ≠ '}') :
    containsSub (a ++ [c]) (str "\x7d\x7d") = false := by
  rw [rbb_eq] at *
  induction a with
  | nil =>
    simp [containsSub, hasPre, hc]
  | cons d a' ih =>
    simp only [containsSub, Bool.or_eq_false_iff] at ha
    simp only [List.cons_append, containsSub, Bool.or_eq_false_iff]
    refine ⟨?_, ih ha.2⟩
    cases a' with
    | nil =>
      show hasPre ['}', '}'] (d :: [c]) = false
      simp [hasPre]
      exact fun _ h => hc h.symm
    | cons e a'' =>
      simp only [hasPre] at ha ⊢
      simpa using ha.1

theorem noRBB_brace (a w : Str)
    (ha : containsSub a (str "\x7d\x7d") = false)
    (hw : containsSub w (str "\x7d\x7d") = false) :
    containsSub (a ++ ('{' :: '{' :: w)) (str "\x7d\x7d") = false := by
  rw [rbb_eq] at *
  induction a with
  | nil =>
    simp [containsSub, hasPre, hw]
  | cons d a' ih =>
    simp only [containsSub, Bool.or_eq_false_iff] at ha
    simp only [List.cons_append, containsSub, Bool.or_eq_false_iff]
    refine ⟨?_, ih ha.2⟩
    cases a' with
    | nil => simp [hasPre]
    | cons e a'' =>
      simp only [hasPre] at ha ⊢
      simpa using ha.1

theorem interpCopy_shape :
    ∀ z : Str,
      (∃ winner, (interpCopy z).1 = winner ++ ['}', '}'] ∧
        containsSub winner (str "\x7d\x7d") = false) ∨
      ((interpCopy z).2 = [] ∧
        containsSub (interpCopy z).1 (str "\x7d\x7d") = false) := by
  intro z
  induction z with
  | nil =>
    right
    simp [interpCopy, containsSub, hasPre, rbb_eq]
  | cons c r ih =>
    simp only [interpCopy]
    by_cases h : (c = '}' ∧ firstIs '}' r = true)
    · rw [if_pos h]
      left
      exact ⟨[], by simp, by simp [containsSub, hasPre, rbb_eq]⟩
    · rw [if_neg h]
      rcases hp : interpCopy r with ⟨w, r'⟩
      rw [hp] at ih
      dsimp only at ih ⊢
      have hw : w ++ r' = r := by
        have := interpCopy_append r
        rw [hp] at this
        exact this
      have hhead : ∀ e t, w = e :: t → ¬(c = '}' ∧ e = '}') := by
        intro e t hwe
        rintro ⟨hc, he⟩
        apply h
        refine ⟨hc, ?_⟩
        have : r = e :: (t ++ r') := by rw [← hw, hwe]; simp
        rw [this]
        simp [firstIs, he]
      rcases ih with ⟨winner, hw1, hw2⟩ | ⟨hr, hnw⟩
      · left
        refine ⟨c :: winner, by simp [hw1], ?_⟩
        rw [rbb_eq] at hw2 ⊢
        cases winner with
        | nil => simp [containsSub, hasPre]
        | cons e t =>
          simp only [containsSub, Bool.or_eq_false_iff] at hw2 ⊢
          refine ⟨?_, ⟨?_, hw2.2⟩⟩
          · have hne := hhead e (t ++ ['}', '}']) (by simp [hw1])
            have hb : ('}' == c) = false ∨ ('}' == e) = false := by
              by_cases hc : c = '}'
              · right
                rw [beq_eq_false_iff_ne]
                exact fun h2 => hne ⟨hc, h2.symm⟩
              · left
                rw [beq_eq_false_iff_ne]
                exact fun h1 => hc h1.symm
            simp only [hasPre]
            rcases hb with hb | hb <;> simp [hb]
          · exact hw2.1
      · right
        refine ⟨hr, ?_⟩
        rw [rbb_eq] at hnw ⊢
        cases w with
        | nil => simp [containsSub, hasPre]
        | cons e t =>
          simp only [containsSub, Bool.or_eq_false_iff] at hnw ⊢
          refine ⟨?_, ⟨hnw.1, hnw.2⟩⟩
          have hne := hhead e t rfl
          have hb : ('}' == c) = false ∨ ('}' == e) = false := by
            by_cases hc : c = '}'
            · right
              rw [beq_eq_false_iff_ne]
              exact fun h2 => hne ⟨hc, h2.symm⟩
            · left
              rw [beq_eq_false_iff_ne]
              exact fun h1 => hc h1.symm
          simp only [hasPre]
          rcases hb with hb | hb <;> simp [hb]

theorem ContentOK.append_one {x : Str} (h : ContentOK x) (c : Char)
    (h1 : c ≠ '{') (h2 : c ≠ '}') : ContentOK (x ++ [c]) := by
  induction h with
  | nil => exact ContentOK.plain c [] h1 h2 ContentOK.nil
  | plain d y hd1 hd2 hy ih => exact ContentOK.plain d (y ++ [c]) hd1 hd2 ih
  | span inner rest hin hr ih =>
    have : ('{' :: '{' :: (inner ++ ('}' :: '}' :: rest))) ++ [c] =
        '{' :: '{' :: (inner ++ ('}' :: '}' :: (rest ++ [c]))) := by simp
    rw [this]
    exact ContentOK.span inner (rest ++ [c]) hin ih
  | spanOpen inner hin =>
    have : ('{' :: '{' :: inner) ++ [c] = '{' :: '{' :: (inner ++ [c]) := by simp
    rw [this]
    exact ContentOK.spanOpen (inner ++ [c]) (noRBB_snoc inner c hin h2)

theorem ContentOK.append_spanT {x : Str} (h : ContentOK x) (winner : Str)
    (hw : containsSub winner (str "\x7d\x7d") = false) :
    ContentOK (x ++ ('{' :: '{' :: (winner ++ ['}', '}']))) := by
  induction h with
  | nil =>
    have : ([] : Str) ++ ('{' :: '{' :: (winner ++ ['}', '}'])) =
        '{' :: '{' :: (winner ++ ('}' :: '}' :: ([] : Str))) := by simp
    rw [this]
    exact ContentOK.span winner [] hw ContentOK.nil
  | plain d y hd1 hd2 hy ih => exact ContentOK.plain d _ hd1 hd2 ih
  | span inner rest hin hr ih =>
    have : ('{' :: '{' :: (inner ++ ('}' :: '}' :: rest))) ++
          ('{' :: '{' :: (winner ++ ['}', '}'])) =
        '{' :: '{' :: (inner ++ ('}' :: '}' ::
          (rest ++ ('{' :: '{' :: (winner ++ ['}', '}']))))) := by simp
    rw [this]
    exact ContentOK.span inner _ hin ih
  | spanOpen inner hin =>
    have : ('{' :: '{' :: inner) ++ ('{' :: '{' :: (winner ++ ['}', '}'])) =
        '{' :: '{' :: ((inner ++ ('{' :: '{' :: winner)) ++
          ('}' :: '}' :: ([] : Str))) := by simp
    rw [this]
    exact ContentOK.span (inner ++ ('{' :: '{' :: winner)) []
      (noRBB_brace inner winner hin hw) ContentOK.nil

theorem ContentOK.append_spanO {x : Str} (h : ContentOK x) (w : Str)
    (hw : containsSub w (str "\x7d\x7d") = false) :
    ContentOK (x ++ ('{' :: '{' :: w)) := by
  induction h with
  | nil => exact ContentOK.spanOpen w hw
  | plain d y hd1 hd2 hy ih => exact ContentOK.plain d _ hd1 hd2 ih
  | span inner rest hin hr ih =>
    have : ('{' :: '{' :: (inner ++ ('}' :: '}' :: rest))) ++ ('{' :: '{' :: w) =
        '{' :: '{' :: (inner ++ ('}' :: '}' :: (rest ++ ('{' :: '{' :: w)))) := by simp
    rw [this]
    exact ContentOK.span inner _ hin ih
  | spanOpen inner hin =>
    have : ('{' :: '{' :: inner) ++ ('{' :: '{' :: w) =
        '{' :: '{' :: (inner ++ ('{' :: '{' :: w)) := by simp
    rw [this]
    exact ContentOK.spanOpen _ (noRBB_brace inner w hin hw)

theorem ContentOK.append_copy {x : Str} (h : ContentOK x) (z : Str) :
    ContentOK (x ++ ('{' :: '{' :: (interpCopy z).1)) := by
  rcases interpCopy_shape z with ⟨winner, hw1, hw2⟩ | ⟨-, hnw⟩
  · rw [hw1]
    exact h.append_spanT winner hw2
  · exact h.append_spanO _ hnw

theorem trimRight_append (a b : Str) :
    trimRight (a ++ b) = if trimRight b = [] then trimRight a else a ++ trimRight b := by
  have hiff : (List.dropWhile isSpaceCh b.reverse).reverse = [] ↔
      (List.dropWhile isSpaceCh b.reverse).isEmpty = true := by
    rw [List.isEmpty_iff, List.reverse_eq_nil_iff]
  unfold trimRight
  rw [List.reverse_append, List.dropWhile_append]
  by_cases hb : (List.dropWhile isSpaceCh b.reverse).isEmpty = true
  · rw [if_pos hb, if_pos (hiff.mpr hb)]
  · rw [if_neg hb, if_neg (fun h => hb (hiff.mp h))]
    simp

theorem trimRight_single (c : Char) :
    trimRight [c] = if isSpaceCh c = true then [] else [c] := by
  unfold trimRight
  by_cases hc : isSpaceCh c = true
  · rw [if_pos hc]
    simp [List.dropWhile, hc]
  · rw [if_neg hc]
    simp only [List.reverse_singleton, List.dropWhile]
    rw [Bool.not_eq_true] at hc
    rw [hc]
    simp

theorem trimRight_snoc_nonspace (y : Str) (c : Char) (hc : isSpaceCh c = false) :
    trimRight (y ++ [c]) = y ++ [c] := by
  unfold trimRight
  simp only [List.reverse_append, List.reverse_singleton, List.singleton_append,
    List.dropWhile]
  rw [hc]
  simp

theorem containsSub_false_mono {x y p : Str}
    (h : containsSub x p = false) (hxy : y <:+: x) : containsSub y p = false := by
  by_contra hne
  rw [Bool.not_eq_false] at hne
  have h1 : p <:+: y := (containsSub_iff y p).mp hne
  have h2 : p <:+: x := h1.trans hxy
  rw [← containsSub_iff x p] at h2
  rw [h] at h2
  exact Bool.false_ne_true h2

theorem trimRight_prefixOf (x : Str) : trimRight x <+: x := by
  have h1 : List.dropWhile isSpaceCh x.reverse <:+ x.reverse :=
    List.dropWhile_suffix _
  have h2 := List.reverse_prefix.mpr h1
  simpa using h2

theorem ContentOK.dropWhileSp {x : Str} (h : ContentOK x) :
    ContentOK (x.dropWhile isSpaceCh) := by
  induction h with
  | nil => exact ContentOK.nil
  | plain c y h1 h2 hy ih =>
    by_cases hc : isSpaceCh c = true
    · simpa [List.dropWhile, hc] using ih
    · rw [Bool.not_eq_true] at hc
      simpa [List.dropWhile, hc] using ContentOK.plain c y h1 h2 hy
  | span inner rest hin hr ih =>
    have : isSpaceCh '{' = false := by decide
    simpa [List.dropWhile, this] using ContentOK.span inner rest hin hr
  | spanOpen inner hin =>
    have : isSpaceCh '{' = false := by decide
    simpa [List.dropWhile, this] using ContentOK.spanOpen inner hin

theorem ContentOK.trimRightOK {x : Str} (h : ContentOK x) :
    ContentOK (trimRight x) := by
  induction h with
  | nil =>
    have : trimRight [] = [] := by rfl
    rw [this]; exact ContentOK.nil
  | plain c y h1 h2 hy ih =>
    have hce : (c :: y) = [c] ++ y := by simp
    rw [hce, trimRight_append [c] y]
    by_cases hz : trimRight y = []
    · rw [if_pos hz, trimRight_single]
      by_cases hc : isSpaceCh c = true
      · rw [if_pos hc]; exact ContentOK.nil
      · rw [if_neg hc]; exact ContentOK.plain c [] h1 h2 ContentOK.nil
    · rw [if_neg hz]
      exact ContentOK.plain c _ h1 h2 ih
  | span inner rest hin hr ih =>
    have hce : '{' :: '{' :: (inner ++ ('}' :: '}' :: rest)) =
        ('{' :: '{' :: (inner ++ ['}', '}'])) ++ rest := by simp
    rw [hce, trimRight_append]
    have hA : trimRight ('{' :: '{' :: (inner ++ ['}', '}'])) =
        '{' :: '{' :: (inner ++ ['}', '}']) := by
      have : '{' :: '{' :: (inner ++ ['}', '}']) =
          ('{' :: '{' :: (inner ++ ['}'])) ++ ['}'] := by simp
      rw [this, trimRight_snoc_nonspace _ _ (by decide)]
    by_cases hz : trimRight rest = []
    · rw [if_pos hz, hA]
      have : '{' :: '{' :: (inner ++ ['}', '}']) =
          '{' :: '{' :: (inner ++ ('}' :: '}' :: ([] : Str))) := by simp
      rw [this]
      exact ContentOK.span inner [] hin ContentOK.nil
    · rw [if_neg hz]
      have : ('{' :: '{' :: (inner ++ ['}', '}'])) ++ trimRight rest =
          '{' :: '{' :: (inner ++ ('}' :: '}' :: trimRight rest)) := by simp
      rw [this]
      exact ContentOK.span inner _ hin ih
  | spanOpen inner hin =>
    have hce : '{' :: '{' :: inner = ['{', '{'] ++ inner := by simp
    rw [hce, trimRight_append]
    by_cases hz : trimRight inner = []
    · rw [if_pos hz]
      have : trimRight ['{', '{'] = ['{', '{'] := by
        have : (['{', '{'] : Str) = ['{'] ++ ['{'] := by simp
        rw [this, trimRight_snoc_nonspace _ _ (by decide)]
      rw [this]
      exact ContentOK.spanOpen [] (by simp [containsSub, hasPre, rbb_eq])
    · rw [if_neg hz]
      have : (['{', '{'] : Str) ++ trimRight inner = '{' :: '{' :: trimRight inner := by simp
      rw [this]
      exact ContentOK.spanOpen _
        (containsSub_false_mono hin (trimRight_prefixOf inner).isInfix)

theorem ContentOK.trimSpaceOK {x : Str} (h : ContentOK x) :
    ContentOK (trimSpace x) :=
  h.dropWhileSp.trimRightOK

theorem flushB_shape (ind : Str) (eff : Int) (acc : List Str) (buf : Str)
    (hbuf : ContentOK buf) (hacc : ∀ l ∈ acc, ShapeOK ind l) :
    ∀ l ∈ flushB ind eff acc buf, ShapeOK ind l := by
  intro l hl
  unfold flushB at hl
  by_cases hz : trimSpace buf = []
  · rw [if_pos hz] at hl
    exact hacc l hl
  · rw [if_neg hz] at hl
    rcases List.mem_append.mp hl with hm | hm
    · exact hacc l hm
    · have : l = depthIndent ind eff ++ trimSpace buf := List.mem_singleton.mp hm
      exact ⟨eff, trimSpace buf, this, Or.inr (Or.inr (Or.inr hbuf.trimSpaceOK))⟩

theorem flushB_eq_nil {ind : Str} {eff : Int} {acc : List Str} {buf : Str}
    (h : flushB ind eff acc buf = []) : acc = [] ∧ trimSpace buf = [] := by
  unfold flushB at h
  by_cases hz : trimSpace buf = []
  · rw [if_pos hz] at h
    exact ⟨h, hz⟩
  · rw [if_neg hz] at h
    exact absurd h (by simp)

theorem expandLoop_shape (ind : Str) (d : Int) :
    ∀ (f : Nat) (rest buf : Str) (local_ : Int) (acc : List Str) (t0 : Str),
      rest.length ≤ f →
      ContentOK buf →
      (∀ l ∈ acc, ShapeOK ind l) →
      (acc = [] → t0 = buf ++ rest) →
      (∀ l ∈ (expandLoop ind d f rest buf local_ acc).1, ShapeOK ind l) ∧
      ((expandLoop ind d f rest buf local_ acc).1 = [] → ContentOK t0) := by
  intro f
  induction f with
  | zero =>
    intro rest buf local_ acc t0 hf hbuf hacc ht
    have hrest : rest = [] := List.length_eq_zero.mp (Nat.le_zero.mp hf)
    subst hrest
    constructor
    · simpa [expandLoop] using flushB_shape ind (d + local_) acc buf hbuf hacc
    · intro hemp
      simp only [expandLoop] at hemp
      obtain ⟨ha, hz⟩ := flushB_eq_nil hemp
      have h0 := ht ha
      rw [List.append_nil] at h0
      rw [h0]
      exact hbuf
  | succ f ih =>
    intro rest buf local_ acc t0 hf hbuf hacc ht
    cases rest with
    | nil =>
      constructor
      · simpa [expandLoop] using flushB_shape ind (d + local_) acc buf hbuf hacc
      · intro hemp
        simp only [expandLoop] at hemp
        obtain ⟨ha, hz⟩ := flushB_eq_nil hemp
        have h0 := ht ha
        rw [List.append_nil] at h0
        rw [h0]
        exact hbuf
    | cons c r =>
      simp only [expandLoop]
      simp only [List.length_cons] at hf
      by_cases h1 : (c = '{' ∧ firstIs '{' r = true)
      · rw [if_pos h1]
        rcases hp : interpCopy (r.drop 1) with ⟨w, r'⟩
        dsimp only
        have hbuf' : ContentOK (buf ++ '{' :: '{' :: w) := by
          have hcp := hbuf.append_copy (r.drop 1)
          rw [hp] at hcp
          exact hcp
        have hw : w ++ r' = r.drop 1 := by
          have hap := interpCopy_append (r.drop 1)
          rw [hp] at hap
          exact hap
        have hlen : r'.length ≤ f := by
          have h2 : r'.length ≤ (r.drop 1).length := by
            rw [← hw]
            simp
          simp only [List.length_drop] at h2
          omega
        apply ih r' (buf ++ '{' :: '{' :: w) local_ acc t0 hlen hbuf' hacc
        intro hemp
        have ht0 := ht hemp
        obtain ⟨hc, hfi⟩ := h1
        subst hc
        cases r with
        | nil => simp [firstIs] at hfi
        | cons rh r2 =>
          simp only [firstIs, beq_iff_eq] at hfi
          subst hfi
          simp only [List.drop_succ_cons, List.drop_zero] at hw
          rw [ht0, ← hw]
          simp
      · rw [if_neg h1]
        by_cases h2 : (c = '@' ∧ isControlFlowDirective (c :: r) = true)
        · rw [if_pos h2]
          rcases hp : extractDirective (c :: r) with ⟨dir, rest1⟩
          dsimp only
          have hdir : ShapeOK ind (depthIndent ind (d + local_) ++ dir) :=
            ⟨d + local_, dir, rfl,
              Or.inr (Or.inr (Or.inl ⟨c :: r, h2.2, by rw [hp]⟩))⟩
          have hacc1 := flushB_shape ind (d + local_) acc buf hbuf hacc
          have hrest1 : rest1.length ≤ r.length := by
            have hrl := extractDirective_rest_le c r (by rw [h2.1]; decide)
            rw [hp] at hrl
            exact hrl
          by_cases hb : firstIs '{' (dropSpacesHT rest1) = true
          · rw [if_pos hb]
            have hacc2 : ∀ l ∈ (flushB ind (d + local_) acc buf ++
                [depthIndent ind (d + local_) ++ dir] ++
                [depthIndent ind (d + local_) ++ ['{']]), ShapeOK ind l := by
              intro l hl
              rcases List.mem_append.mp hl with hl | hl
              · rcases List.mem_append.mp hl with hl | hl
                · exact hacc1 l hl
                · rw [List.mem_singleton.mp hl]
                  exact hdir
              · rw [List.mem_singleton.mp hl]
                exact ⟨d + local_, ['{'], rfl, Or.inl rfl⟩
            have hlen : (dropSpacesHT ((dropSpacesHT rest1).drop 1)).length ≤ f := by
              have a1 := dropSpacesHT_le ((dropSpacesHT rest1).drop 1)
              have a2 := dropSpacesHT_le rest1
              simp only [List.length_drop] at a1
              omega
            apply ih _ [] (local_ + 1) _ t0 hlen ContentOK.nil hacc2
            intro hemp
            exact absurd hemp (by simp)
          · rw [if_neg hb]
            have hacc2 : ∀ l ∈ (flushB ind (d + local_) acc buf ++
                [depthIndent ind (d + local_) ++ dir]), ShapeOK ind l := by
              intro l hl
              rcases List.mem_append.mp hl with hl | hl
              · exact hacc1 l hl
              · rw [List.mem_singleton.mp hl]
                exact hdir
            have hlen : (dropSpacesHT rest1).length ≤ f := by
              have a2 := dropSpacesHT_le rest1
              omega
            apply ih _ [] local_ _ t0 hlen ContentOK.nil hacc2
            intro hemp
            exact absurd hemp (by simp)
        · rw [if_neg h2]
          by_cases h3 : c = '}'
          · rw [if_pos h3]
            have hacc1 := flushB_shape ind (d + local_) acc buf hbuf hacc
            have hacc2 : ∀ l ∈ (flushB ind (d + local_) acc buf ++
                [depthIndent ind
                  (d + if d + (local_ - 1) < 0 then -d else local_ - 1) ++ ['}']]),
                ShapeOK ind l := by
              intro l hl
              rcases List.mem_append.mp hl with hl | hl
              · exact hacc1 l hl
              · rw [List.mem_singleton.mp hl]
                exact ⟨_, ['}'], rfl, Or.inr (Or.inl rfl)⟩
            have hlen : (dropSpacesHT r).length ≤ f := by
              have a2 := dropSpacesHT_le r
              omega
            apply ih _ [] _ _ t0 hlen ContentOK.nil hacc2
            intro hemp
            exact absurd hemp (by simp)
          · rw [if_neg h3]
            by_cases h4 : c = '{'
            · rw [if_pos h4]
              have hacc1 := flushB_shape ind (d + local_) acc buf hbuf hacc
              have hacc2 : ∀ l ∈ (flushB ind (d + local_) acc buf ++
                  [depthIndent ind (d + local_) ++ ['{']]), ShapeOK ind l := by
                intro l hl
                rcases List.mem_append.mp hl with hl | hl
                · exact hacc1 l hl
                · rw [List.mem_singleton.mp hl]
                  exact ⟨d + local_, ['{'], rfl, Or.inl rfl⟩
              have hlen : (dropSpacesHT r).length ≤ f := by
                have a2 := dropSpacesHT_le r
                omega
              apply ih _ [] (local_ + 1) _ t0 hlen ContentOK.nil hacc2
              intro hemp
              exact absurd hemp (by simp)
            · rw [if_neg h4]
              have hbuf' : ContentOK (buf ++ [c]) := hbuf.append_one c h4 h3
              apply ih r (buf ++ [c]) local_ acc t0 (by omega) hbuf' hacc
              intro hemp
              rw [ht hemp]
              simp

/-!
The claims.
-/

/-- C1: the specification requires `formatAngularTemplate` to be
idempotent (`transform (transform x) = transform x` for every input).
The code violates this requirement: on the single-line input
`@ifz{{}}@if}` the first run flushes the buffered text `@ifz{{}}@if`
as one content line (the trailing `@if` was not recognised as a
directive because it was followed by `}`), and the second run splits
that line further, because at the end of the re-scanned line the
keyword `@if` is now followed by the end of the string, which counts as
a word boundary.  This theorem evaluates the code at the failing input,
establishing the code bug. -/
theorem c1_idempotence_fails_on_code :
    formatAngularTemplate (formatAngularTemplate (str "@ifz\x7b\x7b\x7d\x7d@if\x7d")) ≠
      formatAngularTemplate (str "@ifz\x7b\x7b\x7d\x7d@if\x7d") ∧
    formatAngularTemplate (str "@ifz\x7b\x7b\x7d\x7d@if\x7d") =
      str "@ifz\x7b\x7b\x7d\x7d@if\n\x7d" ∧
    formatAngularTemplate (str "@ifz\x7b\x7b\x7d\x7d@if\n\x7d") =
      str "@ifz\x7b\x7b\x7d\x7d\n@if\n\x7d" := by decide

/-- C2: every line emitted by the expansion scan
(`expandLineWithIndent`) carries at most one structural token: it is an
indentation prefix followed by exactly a lone `\x7b`, a lone `\x7d`, a
single extracted directive head, or buffered content with no structural
brace outside interpolation spans (`ShapeOK`).  Content lines and
interpolation spans are the claim's stated exceptions; lines not routed
to expansion are passed through unmodified by `formatAngularTemplate`
and are content lines by definition. -/
theorem c2_brace_per_line :
    ∀ (t ind : Str) (dep : Int) (l : Str),
      l ∈ (expandLineWithIndent t ind dep).lines → ShapeOK ind l := by
  intro t ind dep l hl
  unfold expandLineWithIndent at hl
  have hmain := expandLoop_shape ind dep t.length t [] 0 [] t (le_refl _)
    ContentOK.nil (by simp) (by simp)
  rcases hp : expandLoop ind dep t.length t [] 0 [] with ⟨ls, loc⟩
  rw [hp] at hl hmain
  dsimp only at hl hmain
  by_cases hz : ls.isEmpty = true
  · rw [if_pos hz] at hl
    rw [List.mem_singleton.mp hl]
    have hct : ContentOK t := hmain.2 (List.isEmpty_iff.mp hz)
    exact ⟨dep, t, rfl, Or.inr (Or.inr (Or.inr hct))⟩
  · rw [if_neg hz] at hl
    exact hmain.1 l hl

/-- C2 witness: the brace line produced by expanding `@if (x) \x7b`
satisfies the shape contract. -/
theorem c2_brace_per_line_witness :
    (str "\x7b") ∈ (expandLineWithIndent (str "@if (x) \x7b") [] 0).lines ∧
      ShapeOK [] (str "\x7b") :=
  ⟨by decide, c2_brace_per_line (str "@if (x) \x7b") [] 0 (str "\x7b") (by decide)⟩

/-- C3: the depth counter never goes negative.  The effective depth
after expanding a line (`expandLineWithIndent`), the running document
depth after processing any list of lines from a state with nonnegative
depth, and the final depth of the whole `formatAngularTemplate` run
are all nonnegative; any decrement below zero is clamped (main.go
291-294, 386-389). -/
theorem c3_depth_nonneg :
    (∀ (t ind : Str) (dep : Int), 0 ≤ dep →
      0 ≤ (expandLineWithIndent t ind dep).finalDepth) ∧
    (∀ (ls : List Str) (st : FmtState), 0 ≤ st.depth →
      0 ≤ (ls.foldl procLine st).depth) ∧
    (∀ content : Str,
      0 ≤ ((splitNL content).foldl procLine ⟨[], 0, false⟩).depth) :=
  ⟨fun t ind dep h => expandLine_depth_nonneg t ind dep h,
   fun ls st h => foldl_depth_nonneg ls st h,
   fun content => foldl_depth_nonneg (splitNL content) ⟨[], 0, false⟩ (by decide)⟩

/-- C3 witness: nonnegativity discharged at concrete inputs with
unbalanced closing braces. -/
theorem c3_depth_nonneg_witness :
    0 ≤ (expandLineWithIndent (str "\x7d \x7d") [] 0).finalDepth ∧
      0 ≤ (([str "\x7d", str "\x7d"]).foldl procLine ⟨[], 1, false⟩).depth :=
  ⟨c3_depth_nonneg.1 (str "\x7d \x7d") [] 0 (by decide),
   c3_depth_nonneg.2.1 [str "\x7d", str "\x7d"] ⟨[], 1, false⟩ (by decide)⟩

/-- C4 counterexample: the claim says `isControlFlowLine` is true
exactly when a directive of the fixed vocabulary is followed by an
opening brace, or a `\x7d @directive \x7b` chain occurs, or two abutting
closers `\x7d \x7d` occur.  The code disagrees: `\x7d \x7d` alone yields
false (that check lives in the caller's `needsExpand`, main.go:286, not
in `isControlFlowLine`), and `@case\x7b` yields false although `@case`
belongs to the recognised vocabulary (`isControlFlowDirective` accepts
it) and is immediately followed by an opening brace. -/
theorem c4_counterexample :
    isControlFlowLine (str "\x7d \x7d") = false ∧
    containsSub (str "\x7d \x7d") (str "\x7d \x7d") = true ∧
    isControlFlowLine (str "@case\x7b") = false ∧
    isControlFlowDirective (str "@case\x7b") = true := by decide

/-- C4 amended: `isControlFlowLine s` is true if and only if `s`
contains one of the four substrings `@for`, `@if`, `@else`, `@switch`
(anywhere, with no word-boundary or adjacency requirement, so `@case`,
`@default` and `@empty` are not detected here) together with an opening
brace anywhere on the line, or contains the substring `\x7d @`; the
multi-close `\x7d \x7d` routing is performed by the caller, not by this
function. -/
theorem c4_isControlFlowLine_characterization (s : Str) :
    isControlFlowLine s = true ↔
      (((str "@for" <:+: s) ∨ (str "@if" <:+: s) ∨ (str "@else" <:+: s) ∨
          (str "@switch" <:+: s)) ∧ (str "\x7b" <:+: s)) ∨
        (str "\x7d @" <:+: s) := by
  have h : isControlFlowLine s =
      ((containsSub s (str "@for") || containsSub s (str "@if") ||
        containsSub s (str "@else") || containsSub s (str "@switch")) &&
        containsSub s (str "\x7b") || containsSub s (str "\x7d @")) := by
    unfold isControlFlowLine
    split_ifs with h1 h2 <;> simp_all
  rw [h]
  simp only [Bool.or_eq_true, Bool.and_eq_true, containsSub_iff]
  tauto

/-- C5: `extractDirective` tracks parenthesis depth; a bare `\x7b`
reached at parenthesis depth zero ends the directive exclusively
without being consumed (first conjunct, for any prefix free of
parentheses and braces), and on the claim's nested-parenthesis example
the directive text is `@if (isValid(a, (b+c)))` with the trailing
brace emitted as a separate line at the incremented local depth. -/
theorem c5_extractDirective_boundary :
    (∀ a r : Str, (∀ c ∈ a, c ≠ '(' ∧ c ≠ ')' ∧ c ≠ '{') →
        extractDirective (a ++ '{' :: r) = (trimSpace a, '{' :: r)) ∧
    extractDirective (str "@if (isValid(a, (b+c)))  \x7b") =
      (str "@if (isValid(a, (b+c)))", str "  \x7b") ∧
    expandLineWithIndent (str "@if (isValid(a, (b+c)))  \x7b") [] 0 =
      ⟨[str "@if (isValid(a, (b+c)))", str "\x7b"], 1⟩ := by
  refine ⟨?_, by decide, by decide⟩
  intro a r h
  unfold extractDirective
  rw [extractLoop_skip a [] r h]
  simp

/-- C5 witness: the unconsumed-brace conjunct discharged at a concrete
parenthesis-free directive prefix. -/
theorem c5_extractDirective_boundary_witness :
    extractDirective (str "@x " ++ '{' :: str "y") =
      (trimSpace (str "@x "), '{' :: str "y") :=
  c5_extractDirective_boundary.1 (str "@x ") (str "y") (by decide)

/-- C6: the specification and the code's own header comment
(main.go:247, "Preserves \x7b\x7b \x7d\x7d interpolation") require every
`\x7b\x7b expr \x7d\x7d` span to appear unmodified in the output.  The
code violates this: on `@if \x7b\x7b a \x7d\x7d \x7b` the directive
extractor stops at the first brace of the span, after which the span's
braces are treated as structural braces and the span is split across
brace lines; its braces also change the depth counter.  This theorem
evaluates the code at the failing input, establishing the code bug. -/
theorem c6_interpolation_not_preserved :
    containsSub (str "@if \x7b\x7b a \x7d\x7d \x7b") (str "\x7b\x7b a \x7d\x7d") = true ∧
    formatAngularTemplate (str "@if \x7b\x7b a \x7d\x7d \x7b") =
      str "@if\n\x7b\n    \x7b\n        a\n    \x7d\n\x7d\n\x7b" ∧
    containsSub (formatAngularTemplate (str "@if \x7b\x7b a \x7d\x7d \x7b"))
      (str "\x7b\x7b a \x7d\x7d") = false := by decide

/-- C7 counterexample: the claim says every line of a multi-line
comment region is copied byte-for-byte.  A whitespace-only line inside
a comment is not: the blank-line check (main.go:265) runs before the
comment-mode check, so the line `" "` inside `<!-- ... -->` is
replaced by an empty line. -/
theorem c7_counterexample :
    formatAngularTemplate (str "<!--\n \n-->") = str "<!--\n\n-->" ∧
    formatAngularTemplate (str "<!--\n \n-->") ≠ str "<!--\n \n-->" := by decide

/-- C7 amended: once a line opens a comment (`<!--` without `-->` on
the same line), every line through the one containing `-->` leaves the
depth counter untouched, and every such line whose trimmed form is
nonblank is copied byte-for-byte; whitespace-only lines are replaced by
empty lines (the nonblank hypotheses below record this exception). -/
theorem c7_comment_region_preserved (st : FmtState) (opener closer : Str)
    (body : List Str)
    (h1 : trimSpace opener ≠ [])
    (h2 : containsSub (trimSpace opener) (str "<!--") = true)
    (h3 : containsSub (trimSpace opener) (str "-->") = false)
    (hb : ∀ l ∈ body, trimSpace l ≠ [] ∧
      containsSub (trimSpace l) (str "-->") = false)
    (h4 : trimSpace closer ≠ [])
    (h5 : containsSub (trimSpace closer) (str "-->") = true) :
    (opener :: (body ++ [closer])).foldl procLine st =
      { result := st.result ++ (opener :: (body ++ [closer])),
        depth := st.depth, inComment := false } := by
  have hop : procLine st opener =
      { result := st.result ++ [opener], depth := st.depth, inComment := true } := by
    unfold procLine
    dsimp only
    rw [if_neg h1, if_pos ⟨h2, h3⟩]
  rw [List.foldl_cons, hop, List.foldl_append]
  rw [foldl_comment_body body _ rfl hb]
  dsimp only
  rw [List.foldl_cons, List.foldl_nil]
  rw [procLine_inComment _ closer rfl h4]
  simp [h5]

/-- C7 witness: a concrete three-line comment region processed from a
clean state. -/
theorem c7_comment_region_witness :
    ([str "<!--", str "x y", str "-->"]).foldl procLine ⟨[], 0, false⟩ =
      { result := [str "<!--", str "x y", str "-->"], depth := 0,
        inComment := false } :=
  (c7_comment_region_preserved ⟨[], 0, false⟩ (str "<!--") (str "-->") [str "x y"]
    (by decide) (by decide) (by decide) (by decide) (by decide) (by decide)).trans
    (by decide)

/-- C8: the transformation is total and every scan loop strictly
advances.  The expansion scan is insensitive to any fuel of at least
the remaining length (so the line length bounds the iteration count of
the Go loop, which advances its index every iteration); the
interpolation copy consumes exactly what it copies; an unterminated
`\x7b\x7b` (no `\x7d\x7d` ahead) copies the rest of the line verbatim;
and the directive extractor never leaves more input than it was given,
consuming at least the leading directive character. -/
theorem c8_total_progress :
    (∀ (ind : Str) (dep : Int) (f g : Nat) (rest buf : Str) (local_ : Int)
        (acc : List Str), rest.length ≤ f → rest.length ≤ g →
      expandLoop ind dep f rest buf local_ acc =
        expandLoop ind dep g rest buf local_ acc) ∧
    (∀ z : Str, (interpCopy z).1 ++ (interpCopy z).2 = z) ∧
    (∀ z : Str, containsSub z (str "\x7d\x7d") = false → interpCopy z = (z, [])) ∧
    (∀ (l acc : Str) (pd : Int) (ip : Bool),
      (extractLoop l acc pd ip).2.length ≤ l.length) ∧
    (∀ (c : Char) (r : Str), c ≠ '{' →
      (extractDirective (c :: r)).2.length ≤ r.length) :=
  ⟨fun ind dep f g rest buf local_ acc hf hg =>
      expandLoop_fuel ind dep f g rest buf local_ acc hf hg,
   interpCopy_append,
   interpCopy_unterminated,
   extractLoop_rest_le,
   fun c r h => extractDirective_rest_le c r h⟩

/-- C8 witness: fuel insensitivity and directive progress discharged at
concrete inputs. -/
theorem c8_total_progress_witness :
    expandLoop [] 0 2 (str "ab") [] 0 [] = expandLoop [] 0 5 (str "ab") [] 0 [] ∧
      (extractDirective ('@' :: str "x")).2.length ≤ (str "x").length ∧
      interpCopy (str "\x7b\x7b ab") = (str "\x7b\x7b ab", []) :=
  ⟨c8_total_progress.1 [] 0 2 5 (str "ab") [] 0 [] (by decide) (by decide),
   c8_total_progress.2.2.2.2 '@' (str "x") (by decide),
   c8_total_progress.2.2.1 (str "\x7b\x7b ab") (by decide)⟩

/-- C9 counterexample: the claim's word-boundary set after a directive
keyword is (space, `(`, `\x7b`, tab, or end of string), so
`isControlFlowDirective` applied to a keyword followed by a newline
would have to return false; the code also accepts `'\n'` (main.go:449)
and returns true. -/
theorem c9_counterexample :
    isControlFlowDirective (str "@if\nx") = true ∧
    hasPre (str "@if") (str "@if\nx") = true ∧
    (str "@if\nx").drop 3 = '\n' :: str "x" ∧
    '\n' ∉ [' ', '(', '{', '\t'] := by decide

/-- C9 amended: `isControlFlowDirective s` is true if and only if some
keyword of the fixed vocabulary is a prefix of `s` and is immediately
followed by the end of the string or by one of the boundary characters
space, `(`, `\x7b`, newline, tab (the code's set includes the newline);
in particular `@ifX` is never classified as a directive. -/
theorem c9_isControlFlowDirective_characterization (s : Str) :
    isControlFlowDirective s = true ↔
      ∃ d ∈ directiveList, d <+: s ∧
        (s.length = d.length ∨ ∃ c r, s = d ++ c :: r ∧ c ∈ boundaryChars) := by
  unfold isControlFlowDirective
  rw [List.any_eq_true]
  apply exists_congr; intro d
  apply and_congr_right; intro _
  rw [Bool.and_eq_true, hasPre_iff]
  apply and_congr_right; intro hpre
  obtain ⟨t, rfl⟩ := hpre
  rw [Bool.or_eq_true]
  constructor
  · rintro (h | h)
    · left; simpa using h
    · right
      rw [List.drop_left] at h
      cases t with
      | nil => exact absurd h (by simp)
      | cons c r => exact ⟨c, r, rfl, List.elem_iff.mp h⟩
  · rintro (h | ⟨c, r, he, hc⟩)
    · left; simpa using h
    · right
      have ht : t = c :: r := by
        have hee := he
        simpa using hee
      rw [List.drop_left, ht]
      exact List.elem_iff.mpr hc

/-- C10: an input line containing both `<!--` and `-->` does not enter
comment mode: it is handled by the normal classification path
(`classifyLine`, which applies depth-based re-indentation or
expansion), and such a line can change the running depth, as the
concrete two-line input shows (the comment text is split and the
following line is indented one level deeper). -/
theorem c10_single_line_comment_classified :
    (∀ (st : FmtState) (line : Str), st.inComment = false →
      trimSpace line ≠ [] →
      containsSub (trimSpace line) (str "<!--") = true →
      containsSub (trimSpace line) (str "-->") = true →
      procLine st line =
        { result := st.result ++
            (classifyLine st.depth (trimSpace line) (extractIndent line)).1,
          depth := (classifyLine st.depth (trimSpace line)
            (extractIndent line)).2,
          inComment := false }) ∧
    formatAngularTemplate (str "<!-- @if (x) \x7b -->\nz") =
      str "<!--\n@if (x)\n\x7b\n    -->\n    z" := by
  constructor
  · intro st line h0 h1 h2 h3
    unfold procLine
    dsimp only
    rw [if_neg h1, if_neg (by simp [h3]), if_neg (by simp [h0]), h0]
  · decide

/-- C10 witness: the classification-path equality discharged at a
concrete single-line comment. -/
theorem c10_single_line_comment_witness :
    procLine ⟨[], 0, false⟩ (str "<!-- x -->") =
      { result := [] ++
          (classifyLine 0 (trimSpace (str "<!-- x -->"))
            (extractIndent (str "<!-- x -->"))).1,
        depth := (classifyLine 0 (trimSpace (str "<!-- x -->"))
          (extractIndent (str "<!-- x -->"))).2,
        inComment := false } :=
  c10_single_line_comment_classified.1 ⟨[], 0, false⟩ (str "<!-- x -->") rfl
    (by decide) (by decide) (by decide)

end GoFormatter
